import Mathlib

/-!
Verification of the `number` crate: three self-normalizing f64 newtypes
(`UnipolarFloat`, `BipolarFloat`, `Phase`).

The Rust code works on IEEE-754 binary64 values.  We model a double as
either NaN, a signed infinity, or a finite rational number, and model every
arithmetic operation of the source faithfully: exact rational results are
rounded back to the binary64 grid with round-to-nearest, ties-to-even
(`fround`), `%` (fmod) is exact (as it is in IEEE-754), and `min`/`max`
follow Rust's NaN-ignoring semantics.  Signed zero is collapsed to a single
zero; no operation relevant to the claims distinguishes the two zeros.
-/

/-- Model of an IEEE-754 binary64 value: NaN, an infinity (`true` = negative),
or a finite value, represented exactly as a rational. -/
inductive F where
  | nan : F
  | inf : Bool → F
  | finite : ℚ → F
deriving DecidableEq

/-- Truncation of a rational toward zero (the rounding used by fmod). -/
def qtrunc (x : ℚ) : ℤ := if 0 ≤ x then ⌊x⌋ else - ⌊-x⌋

/-- Fuel-driven binary logarithm on naturals; structural recursion so that
the kernel can evaluate it. -/
def log2fuel : Nat → Nat → Nat
  | 0, _ => 0
  | fuel+1, n => if n < 2 then 0 else log2fuel fuel (n / 2) + 1

/-- Binary logarithm (floor) of a natural number, 0 at 0 and 1. -/
def natLog2 (n : Nat) : Nat := log2fuel n n

/-- The rational 2^e for an integer exponent. -/
def qpow2 (e : ℤ) : ℚ :=
  if 0 ≤ e then ((2 ^ e.toNat : ℕ) : ℚ) else 1 / ((2 ^ (-e).toNat : ℕ) : ℚ)

/-- Round a rational to the nearest integer, ties to even. -/
def rne (x : ℚ) : ℤ :=
  if x - ⌊x⌋ < 1/2 then ⌊x⌋
  else if 1/2 < x - ⌊x⌋ then ⌊x⌋ + 1
  else if Int.emod ⌊x⌋ 2 = 0 then ⌊x⌋ else ⌊x⌋ + 1

/-- Floor of the binary logarithm of |q| for a nonzero rational `q`. -/
def floorLog2 (q : ℚ) : ℤ :=
  let k : ℤ := (natLog2 q.num.natAbs : ℤ) - (natLog2 q.den : ℤ)
  if qpow2 k ≤ |q| then k else k - 1

/-- Exponent of the binary64 rounding grid (unit in the last place) that
applies around magnitude |q|: `floorLog2 q - 52`, bottoming out at the
subnormal grid 2^-1074. -/
def ulpExp (q : ℚ) : ℤ := max (floorLog2 q - 52) (-1074)

/-- Round an exact rational to binary64: round to nearest, ties to even,
overflowing to infinity.  This is the rounding every inexact IEEE-754
operation performs on its exact result. -/
def fround (q : ℚ) : F :=
  if q = 0 then F.finite 0
  else if qpow2 1024 ≤ |(rne (q / qpow2 (ulpExp q)) : ℚ) * qpow2 (ulpExp q)| then
    F.inf (decide (q < 0))
  else F.finite ((rne (q / qpow2 (ulpExp q)) : ℚ) * qpow2 (ulpExp q))

/-- A decimal floating-point literal of the Rust source: the nearest
binary64 value to the written rational. -/
def lit (q : ℚ) : F := fround q

/-- IEEE comparison `<` : false whenever NaN is involved. -/
def fltb : F → F → Bool
  | F.nan, _ => false
  | _, F.nan => false
  | F.inf s, F.inf t => s && !t
  | F.inf s, F.finite _ => s
  | F.finite _, F.inf t => !t
  | F.finite a, F.finite b => decide (a < b)

/-- IEEE comparison `==` : false whenever NaN is involved. -/
def feqb : F → F → Bool
  | F.nan, _ => false
  | _, F.nan => false
  | F.inf s, F.inf t => s == t
  | F.inf _, F.finite _ => false
  | F.finite _, F.inf _ => false
  | F.finite a, F.finite b => decide (a = b)

/-- IEEE comparison `<=` : false whenever NaN is involved. -/
def fleb (a b : F) : Bool := fltb a b || feqb a b

/-- IEEE negation. -/
def fneg : F → F
  | F.nan => F.nan
  | F.inf s => F.inf (!s)
  | F.finite q => F.finite (-q)

/-- IEEE absolute value. -/
def fabs : F → F
  | F.nan => F.nan
  | F.inf _ => F.inf false
  | F.finite q => F.finite |q|

/-- IEEE addition: exact sum rounded to binary64; the usual special cases
for NaN and infinities. -/
def fadd : F → F → F
  | F.nan, _ => F.nan
  | _, F.nan => F.nan
  | F.inf s, F.inf t => if s = t then F.inf s else F.nan
  | F.inf s, F.finite _ => F.inf s
  | F.finite _, F.inf t => F.inf t
  | F.finite a, F.finite b => fround (a + b)

/-- IEEE subtraction, `a - b = a + (-b)` exactly as in IEEE-754. -/
def fsub (a b : F) : F := fadd a (fneg b)

/-- IEEE multiplication. -/
def fmul : F → F → F
  | F.nan, _ => F.nan
  | _, F.nan => F.nan
  | F.inf s, F.inf t => F.inf (xor s t)
  | F.inf s, F.finite q => if q = 0 then F.nan else F.inf (xor s (decide (q < 0)))
  | F.finite q, F.inf t => if q = 0 then F.nan else F.inf (xor (decide (q < 0)) t)
  | F.finite a, F.finite b => fround (a * b)

/-- IEEE division. -/
def fdiv : F → F → F
  | F.nan, _ => F.nan
  | _, F.nan => F.nan
  | F.inf _, F.inf _ => F.nan
  | F.inf s, F.finite q => F.inf (xor s (decide (q < 0)))
  | F.finite _, F.inf _ => F.finite 0
  | F.finite a, F.finite b =>
    if b = 0 then (if a = 0 then F.nan else F.inf (decide (a < 0)))
    else fround (a / b)

/-- IEEE remainder (Rust's `%` on f64, i.e. fmod): exact, sign follows the
dividend; NaN when the dividend is non-finite or the divisor is zero. -/
def frem : F → F → F
  | F.nan, _ => F.nan
  | _, F.nan => F.nan
  | F.inf _, _ => F.nan
  | F.finite a, F.inf _ => F.finite a
  | F.finite a, F.finite b =>
    if b = 0 then F.nan else F.finite (a - (qtrunc (a / b) : ℚ) * b)

/-- Rust `f64::rem_euclid`:
`let r = self % rhs; if r < 0.0 { r + rhs.abs() } else { r }`.
Note the final addition is a rounded IEEE addition. -/
def fremEuclid (a b : F) : F :=
  if fltb (frem a b) (F.finite 0) then fadd (frem a b) (fabs b) else frem a b

/-- Rust `f64::max`: if one argument is NaN the other is returned,
otherwise the numeric maximum. -/
def fmax : F → F → F
  | F.nan, y => y
  | x, F.nan => x
  | x, y => if fltb x y then y else x

/-- Rust `f64::min`: if one argument is NaN the other is returned,
otherwise the numeric minimum. -/
def fmin : F → F → F
  | F.nan, y => y
  | x, F.nan => x
  | x, y => if fltb y x then y else x

/-- The crate's shared clamp helper:
`*v = f64::min(f64::max(*v, min), max)`. -/
def clampF (v lo hi : F) : F := fmin (fmax v lo) hi

/-- `pub struct UnipolarFloat(f64)`: a float constrained to [0.0, 1.0]. -/
structure UnipolarFloat where
  val : F
  deriving DecidableEq

/-- `UnipolarFloat::ZERO`. -/
def UnipolarFloat.ZERO : UnipolarFloat := ⟨F.finite 0⟩

/-- `UnipolarFloat::ONE`. -/
def UnipolarFloat.ONE : UnipolarFloat := ⟨F.finite 1⟩

/-- `UnipolarFloat::new`: clamp the provided value to the unit range. -/
def UnipolarFloat.new (v : F) : UnipolarFloat := ⟨clampF v (F.finite 0) (F.finite 1)⟩

/-- `UnipolarFloat::invert`: `Self(1.0 - self.0)`, no clamp. -/
def UnipolarFloat.invert (a : UnipolarFloat) : UnipolarFloat :=
  ⟨fsub (F.finite 1) a.val⟩

/-- `impl Mul for UnipolarFloat`: `Self(self.0 * rhs.0)`, no clamp. -/
def UnipolarFloat.mul (a b : UnipolarFloat) : UnipolarFloat := ⟨fmul a.val b.val⟩

/-- `impl Mul<f64> for UnipolarFloat`: output is a raw f64, `self.0 * rhs`. -/
def UnipolarFloat.mulF64 (a : UnipolarFloat) (rhs : F) : F := fmul a.val rhs

/-- `impl Add for UnipolarFloat`: `Self::new(self.val() + rhs.val())`. -/
def UnipolarFloat.add (a b : UnipolarFloat) : UnipolarFloat :=
  UnipolarFloat.new (fadd a.val b.val)

/-- `impl Sub for UnipolarFloat`: `Self::new(self.0 - rhs.0)`. -/
def UnipolarFloat.sub (a b : UnipolarFloat) : UnipolarFloat :=
  UnipolarFloat.new (fsub a.val b.val)

/-- Derived `PartialEq` for `UnipolarFloat`: IEEE equality of the inner
values. -/
def UnipolarFloat.beq (a b : UnipolarFloat) : Bool := feqb a.val b.val

/-- `pub struct BipolarFloat(f64)`: a float constrained to [-1.0, 1.0]. -/
structure BipolarFloat where
  val : F
  deriving DecidableEq

/-- `BipolarFloat::ZERO`. -/
def BipolarFloat.ZERO : BipolarFloat := ⟨F.finite 0⟩

/-- `BipolarFloat::ONE`. -/
def BipolarFloat.ONE : BipolarFloat := ⟨F.finite 1⟩

/-- `BipolarFloat::new`: clamp the provided value to the bipolar unit range. -/
def BipolarFloat.new (v : F) : BipolarFloat :=
  ⟨clampF v (F.finite (-1)) (F.finite 1)⟩

/-- `BipolarFloat::abs`: `UnipolarFloat(self.0.abs())`, no clamp. -/
def BipolarFloat.abs (a : BipolarFloat) : UnipolarFloat := ⟨fabs a.val⟩

/-- `BipolarFloat::invert`: `Self(-1.0 * self.0)`, no clamp. -/
def BipolarFloat.invert (a : BipolarFloat) : BipolarFloat :=
  ⟨fmul (F.finite (-1)) a.val⟩

/-- `BipolarFloat::invert_if`. -/
def BipolarFloat.invertIf (a : BipolarFloat) (b : Bool) : BipolarFloat :=
  if b then a.invert else a

/-- `impl Mul<UnipolarFloat> for BipolarFloat`: `Self(self.0 * rhs.0)`,
no clamp. -/
def BipolarFloat.mulUni (a : BipolarFloat) (b : UnipolarFloat) : BipolarFloat :=
  ⟨fmul a.val b.val⟩

/-- `impl Mul for BipolarFloat`: `Self(self.0 * rhs.0)`, no clamp. -/
def BipolarFloat.mul (a b : BipolarFloat) : BipolarFloat := ⟨fmul a.val b.val⟩

/-- `impl Add for BipolarFloat`: `Self::new(self.val() + rhs.val())`. -/
def BipolarFloat.add (a b : BipolarFloat) : BipolarFloat :=
  BipolarFloat.new (fadd a.val b.val)

/-- `impl Sub for BipolarFloat`: `Self::new(self.0 - rhs.0)`. -/
def BipolarFloat.sub (a b : BipolarFloat) : BipolarFloat :=
  BipolarFloat.new (fsub a.val b.val)

/-- Derived `PartialEq` for `BipolarFloat`. -/
def BipolarFloat.beq (a b : BipolarFloat) : Bool := feqb a.val b.val

/-- `pub struct Phase(f64)`: a unit angular phase on [0.0, 1.0], wrapped
with Euclidean modulus. -/
structure Phase where
  val : F
  deriving DecidableEq

/-- `Phase::ZERO`. -/
def Phase.ZERO : Phase := ⟨F.finite 0⟩

/-- `Phase::ONE`: 1.0 is an acceptable boundary value for phase. -/
def Phase.ONE : Phase := ⟨F.finite 1⟩

/-- `Phase::new`: construct and wrap, `self.0 = self.0.rem_euclid(1.0)`. -/
def Phase.new (v : F) : Phase := ⟨fremEuclid v (F.finite 1)⟩

/-- `impl Add<Phase> for Phase`: `Self::new(self.0 + rhs.0)`. -/
def Phase.add (a b : Phase) : Phase := Phase.new (fadd a.val b.val)

/-- `impl Add<f64> for Phase`: `Self::new(self.0 + rhs)`. -/
def Phase.addF64 (a : Phase) (rhs : F) : Phase := Phase.new (fadd a.val rhs)

/-- `impl Mul<UnipolarFloat> for Phase`: `Self(self.0 * v.val())`, no wrap. -/
def Phase.mulUni (a : Phase) (v : UnipolarFloat) : Phase := ⟨fmul a.val v.val⟩

/-- `impl Mul<f64> for Phase`: `Self::new(self.0 * v)`, re-wrapped. -/
def Phase.mulF64 (a : Phase) (v : F) : Phase := Phase.new (fmul a.val v)

/-- `impl Div<UnipolarFloat> for Phase`: `Self::new(self.0 / v.val())`,
re-wrapped. -/
def Phase.div (a : Phase) (v : UnipolarFloat) : Phase :=
  Phase.new (fdiv a.val v.val)

/-- `impl PartialEq<T> for Phase` (with `T` convertible to f64), applied to
another `Phase`: IEEE equality of the inner values. -/
def Phase.beq (a b : Phase) : Bool := feqb a.val b.val

/-- The serde-derived `Deserialize` for the newtype struct `UnipolarFloat`:
the bare number is read straight into the field, with no clamping. -/
def deserializeUnipolarFloat (v : F) : UnipolarFloat := ⟨v⟩

/-- The serde-derived `Deserialize` for the newtype struct `BipolarFloat`:
the bare number is read straight into the field, with no clamping. -/
def deserializeBipolarFloat (v : F) : BipolarFloat := ⟨v⟩

/-- The serde-derived `Deserialize` for the newtype struct `Phase`:
the bare number is read straight into the field, with no wrapping. -/
def deserializePhase (v : F) : Phase := ⟨v⟩

/-! Basic facts about the rounding toolkit. -/

theorem qpow2_eq_zpow (e : ℤ) : qpow2 e = (2:ℚ) ^ e := by
  rcases le_or_lt 0 e with h | h
  · rw [qpow2, if_pos h]
    push_cast
    rw [← zpow_natCast (2:ℚ), Int.toNat_of_nonneg h]
  · rw [qpow2, if_neg (not_le.mpr h)]
    push_cast
    rw [← zpow_natCast (2:ℚ), Int.toNat_of_nonneg (by omega : (0:ℤ) ≤ -e),
      one_div, ← zpow_neg, neg_neg]

theorem qpow2_pos (e : ℤ) : 0 < qpow2 e := by
  rw [qpow2_eq_zpow]
  positivity

theorem qpow2_add (a b : ℤ) : qpow2 (a + b) = qpow2 a * qpow2 b := by
  rw [qpow2_eq_zpow, qpow2_eq_zpow, qpow2_eq_zpow, zpow_add₀ (by norm_num : (2:ℚ) ≠ 0)]

theorem qpow2_le_qpow2 {a b : ℤ} : qpow2 a ≤ qpow2 b ↔ a ≤ b := by
  rw [qpow2_eq_zpow, qpow2_eq_zpow]
  exact zpow_le_zpow_iff_right₀ (by norm_num)

theorem rne_mem (x : ℚ) : rne x = ⌊x⌋ ∨ rne x = ⌊x⌋ + 1 := by
  unfold rne
  split_ifs <;> simp

theorem le_rne (M : ℤ) (x : ℚ) (h : (M:ℚ) ≤ x) : M ≤ rne x := by
  have hfl : M ≤ ⌊x⌋ := Int.le_floor.mpr h
  unfold rne
  split_ifs <;> omega

theorem rne_le (M : ℤ) (x : ℚ) (h : x ≤ (M:ℚ)) : rne x ≤ M := by
  have hfl : ⌊x⌋ ≤ M := by
    have h2 := Int.floor_le_floor h
    simpa using h2
  rcases lt_or_eq_of_le hfl with hlt | heq
  · unfold rne
    split_ifs <;> omega
  · have hx : x = (M:ℚ) := le_antisymm h (by rw [← heq]; exact Int.floor_le x)
    subst hx
    unfold rne
    rw [Int.floor_intCast]
    norm_num

theorem log2fuel_spec : ∀ (fuel n : Nat), 1 ≤ n → n ≤ fuel →
    2 ^ (log2fuel fuel n) ≤ n ∧ n < 2 ^ (log2fuel fuel n + 1) := by
  intro fuel
  induction fuel with
  | zero => intro n h1 h2; omega
  | succ f ih =>
    intro n h1 h2
    rw [log2fuel]
    by_cases hn : n < 2
    · rw [if_pos hn]
      norm_num
      omega
    · rw [if_neg hn]
      obtain ⟨hl, hr⟩ := ih (n / 2) (by omega) (by omega)
      rw [pow_succ] at hr
      constructor
      · rw [pow_succ]
        omega
      · rw [pow_succ, pow_succ]
        omega

theorem natLog2_spec (n : Nat) (h : 1 ≤ n) :
    2 ^ (natLog2 n) ≤ n ∧ n < 2 ^ (natLog2 n + 1) :=
  log2fuel_spec n n h le_rfl

theorem floorLog2_correct (q : ℚ) (hq : q ≠ 0) :
    qpow2 (floorLog2 q) ≤ |q| ∧ |q| < qpow2 (floorLog2 q + 1) := by
  have ha1 : 1 ≤ q.num.natAbs := by
    have : q.num ≠ 0 := Rat.num_ne_zero.mpr hq
    omega
  have hb1 : 1 ≤ q.den := q.pos
  have hbq : (0:ℚ) < (q.den : ℚ) := by exact_mod_cast hb1
  have habs : |q| = (q.num.natAbs : ℚ) / (q.den : ℚ) := by
    conv_lhs => rw [← Rat.num_div_den q]
    rw [abs_div, abs_of_pos hbq, Int.cast_natAbs, Int.cast_abs]
  obtain ⟨hla, hra⟩ := natLog2_spec q.num.natAbs ha1
  obtain ⟨hlb, hrb⟩ := natLog2_spec q.den hb1
  set la := natLog2 q.num.natAbs with hlaeq
  set lb := natLog2 q.den with hlbeq
  have haQ : ((2:ℚ)) ^ la ≤ (q.num.natAbs : ℚ) := by exact_mod_cast hla
  have hraQ : (q.num.natAbs : ℚ) < (2:ℚ) ^ (la + 1) := by exact_mod_cast hra
  have hlbQ : ((2:ℚ)) ^ lb ≤ (q.den : ℚ) := by exact_mod_cast hlb
  have hrbQ : (q.den : ℚ) < (2:ℚ) ^ (lb + 1) := by exact_mod_cast hrb
  have haQ0 : (0:ℚ) < (q.num.natAbs : ℚ) := by
    have : (0:ℚ) < (2:ℚ) ^ la := by positivity
    linarith
  have hlow : qpow2 ((la : ℤ) - lb - 1) < |q| := by
    rw [habs, qpow2_eq_zpow]
    rw [lt_div_iff₀ hbq]
    calc (2:ℚ) ^ ((la : ℤ) - lb - 1) * (q.den : ℚ)
        < (2:ℚ) ^ ((la : ℤ) - lb - 1) * (2:ℚ) ^ (lb + 1) := by
          have h2 : (0:ℚ) < (2:ℚ) ^ ((la : ℤ) - lb - 1) := by positivity
          exact mul_lt_mul_of_pos_left hrbQ h2
      _ = (2:ℚ) ^ (la : ℤ) := by
          rw [← zpow_natCast (2:ℚ) (lb + 1), ← zpow_add₀ (by norm_num : (2:ℚ) ≠ 0)]
          congr 1
          push_cast
          ring
      _ ≤ (q.num.natAbs : ℚ) := by
          rw [zpow_natCast]
          exact haQ
  have hhigh : |q| < qpow2 ((la : ℤ) - lb + 1) := by
    rw [habs, qpow2_eq_zpow]
    rw [div_lt_iff₀ hbq]
    calc (q.num.natAbs : ℚ) < (2:ℚ) ^ (la + 1) := hraQ
      _ = (2:ℚ) ^ ((la : ℤ) - lb + 1) * (2:ℚ) ^ (lb : ℤ) := by
          rw [← zpow_add₀ (by norm_num : (2:ℚ) ≠ 0), ← zpow_natCast (2:ℚ) (la + 1)]
          congr 1
          push_cast
          ring
      _ ≤ (2:ℚ) ^ ((la : ℤ) - lb + 1) * (q.den : ℚ) := by
          have h2 : (0:ℚ) < (2:ℚ) ^ ((la : ℤ) - lb + 1) := by positivity
          have : ((2:ℚ)) ^ (lb : ℤ) ≤ (q.den : ℚ) := by
            rw [zpow_natCast]
            exact hlbQ
          exact mul_le_mul_of_nonneg_left this (le_of_lt h2)
  rw [floorLog2]
  rw [← hlaeq, ← hlbeq]
  split_ifs with hcond
  · exact ⟨hcond, by simpa using hhigh⟩
  · constructor
    · exact le_of_lt (by simpa using hlow)
    · simpa using not_le.mp hcond

theorem floorLog2_eq (q : ℚ) (k : ℤ) (hq : q ≠ 0)
    (h1 : qpow2 k ≤ |q|) (h2 : |q| < qpow2 (k + 1)) : floorLog2 q = k := by
  obtain ⟨hl, hh⟩ := floorLog2_correct q hq
  by_contra hne
  rcases lt_or_gt_of_ne hne with hlt | hgt
  · have : qpow2 (floorLog2 q + 1) ≤ qpow2 k := qpow2_le_qpow2.mpr (by omega)
    linarith
  · have : qpow2 (k + 1) ≤ qpow2 (floorLog2 q) := qpow2_le_qpow2.mpr (by omega)
    linarith

theorem floorLog2_le (q : ℚ) (t : ℤ) (hq : q ≠ 0) (h : |q| ≤ qpow2 t) :
    floorLog2 q ≤ t := by
  obtain ⟨hl, _⟩ := floorLog2_correct q hq
  exact qpow2_le_qpow2.mp (le_trans hl h)

theorem fround_eq (q r : ℚ) (k : ℤ) (hq : q ≠ 0)
    (h1 : qpow2 k ≤ |q|) (h2 : |q| < qpow2 (k + 1))
    (hr : (rne (q / qpow2 (max (k - 52) (-1074))) : ℚ) * qpow2 (max (k - 52) (-1074)) = r)
    (hb : |r| < qpow2 1024) :
    fround q = F.finite r := by
  have hfl : floorLog2 q = k := floorLog2_eq q k hq h1 h2
  rw [fround, if_neg hq, ulpExp, hfl, hr, if_neg (not_le.mpr hb)]

theorem fround_abs_le (t : ℤ) (ht1 : -1022 ≤ t) (ht2 : t ≤ 1023) (q : ℚ)
    (h : |q| ≤ qpow2 t) :
    ∃ r : ℚ, fround q = F.finite r ∧ |r| ≤ qpow2 t := by
  by_cases hq : q = 0
  · subst hq
    refine ⟨0, by rw [fround, if_pos rfl], by simpa using le_of_lt (qpow2_pos t)⟩
  · have hfl : floorLog2 q ≤ t := floorLog2_le q t hq h
    have he_le : ulpExp q ≤ t - 52 := by
      rw [ulpExp, max_le_iff]
      constructor <;> omega
    set e := ulpExp q with he
    set M : ℤ := 2 ^ (t - e).toNat with hM
    have hMQ : (M : ℚ) = qpow2 (t - e) := by
      rw [hM, qpow2, if_pos (by omega : (0:ℤ) ≤ t - e)]
      push_cast
      rfl
    have hxabs : |q / qpow2 e| ≤ (M:ℚ) := by
      rw [abs_div, abs_of_pos (qpow2_pos e), div_le_iff₀ (qpow2_pos e), hMQ, ← qpow2_add]
      calc |q| ≤ qpow2 t := h
        _ = qpow2 (t - e + e) := by congr 1; ring
    have habs2 := abs_le.mp hxabs
    have h1 : rne (q / qpow2 e) ≤ M := rne_le M _ habs2.2
    have h2 : -M ≤ rne (q / qpow2 e) := by
      refine le_rne (-M) _ ?_
      push_cast
      exact habs2.1
    have hrne : |(rne (q / qpow2 e) : ℚ)| ≤ (M : ℚ) := by
      rw [abs_le]
      constructor
      · exact_mod_cast h2
      · exact_mod_cast h1
    have hrabs : |(rne (q / qpow2 e) : ℚ) * qpow2 e| ≤ qpow2 t := by
      rw [abs_mul, abs_of_pos (qpow2_pos e)]
      calc |(rne (q / qpow2 e) : ℚ)| * qpow2 e ≤ (M:ℚ) * qpow2 e :=
            mul_le_mul_of_nonneg_right hrne (le_of_lt (qpow2_pos e))
        _ = qpow2 t := by rw [hMQ, ← qpow2_add]; congr 1; ring
    rw [fround, if_neg hq, if_neg]
    · exact ⟨_, rfl, hrabs⟩
    · intro hcon
      have hc2 : qpow2 1024 ≤ qpow2 t := le_trans hcon hrabs
      have := qpow2_le_qpow2.mp hc2
      omega

theorem fround_nonneg (q : ℚ) (h : 0 ≤ q) (r : ℚ) (hr : fround q = F.finite r) :
    0 ≤ r := by
  by_cases hq : q = 0
  · subst hq
    rw [fround, if_pos rfl] at hr
    cases hr
    rfl
  · rw [fround, if_neg hq] at hr
    split_ifs at hr
    have hx : (0:ℚ) ≤ q / qpow2 (ulpExp q) :=
      div_nonneg h (le_of_lt (qpow2_pos _))
    have hn : (0:ℤ) ≤ rne (q / qpow2 (ulpExp q)) := le_rne 0 _ (by exact_mod_cast hx)
    cases hr
    have : (0:ℚ) ≤ (rne (q / qpow2 (ulpExp q)) : ℚ) := by exact_mod_cast hn
    exact mul_nonneg this (le_of_lt (qpow2_pos _))

theorem fround_01 (q : ℚ) (h0 : 0 ≤ q) (h1 : q ≤ 1) :
    ∃ r : ℚ, fround q = F.finite r ∧ 0 ≤ r ∧ r ≤ 1 := by
  have habs : |q| ≤ qpow2 0 := by
    rw [qpow2, if_pos le_rfl]
    norm_num
    rw [abs_le]
    constructor <;> linarith
  obtain ⟨r, hr, hrabs⟩ := fround_abs_le 0 (by norm_num) (by norm_num) q habs
  refine ⟨r, hr, fround_nonneg q h0 r hr, ?_⟩
  have := (abs_le.mp hrabs).2
  rw [qpow2, if_pos le_rfl] at this
  norm_num at this
  exact this

theorem qtrunc_bounds (q : ℚ) : -1 < q - (qtrunc q : ℚ) ∧ q - (qtrunc q : ℚ) < 1 := by
  rw [qtrunc]
  split_ifs with h
  · have h1 := Int.floor_le q
    have h2 := Int.lt_floor_add_one q
    constructor <;> linarith
  · have h1 := Int.floor_le (-q)
    have h2 := Int.lt_floor_add_one (-q)
    push_cast
    constructor <;> linarith

theorem qtrunc_sign (q : ℚ) (h : 0 ≤ q) : 0 ≤ q - (qtrunc q : ℚ) := by
  rw [qtrunc, if_pos h]
  have h1 := Int.floor_le q
  linarith

theorem qtrunc_sign_neg (q : ℚ) (h : q < 0) : q - (qtrunc q : ℚ) ≤ 0 := by
  rw [qtrunc, if_neg (not_le.mpr h)]
  have h1 := Int.floor_le (-q)
  push_cast
  linarith

theorem frem_one (q : ℚ) :
    frem (F.finite q) (F.finite 1) = F.finite (q - (qtrunc q : ℚ)) := by
  rw [frem]
  norm_num

theorem wrap_range (q : ℚ) :
    ∃ r, fremEuclid (F.finite q) (F.finite 1) = F.finite r ∧ 0 ≤ r ∧ r ≤ 1 := by
  rw [fremEuclid, frem_one]
  obtain ⟨hgt, hlt⟩ := qtrunc_bounds q
  by_cases hneg : q - (qtrunc q : ℚ) < 0
  · rw [if_pos (by simpa [fltb] using hneg)]
    have hadd : fadd (F.finite (q - (qtrunc q : ℚ))) (fabs (F.finite 1)) =
        fround (q - (qtrunc q : ℚ) + 1) := by
      simp [fadd, fabs]
    rw [hadd]
    exact fround_01 _ (by linarith) (by linarith)
  · rw [if_neg (by simpa [fltb] using hneg)]
    exact ⟨_, rfl, by linarith [not_lt.mp hneg], by linarith⟩

theorem wrap_exact (q : ℚ) (h0 : 0 ≤ q) (h1 : q < 1) :
    fremEuclid (F.finite q) (F.finite 1) = F.finite q := by
  have htr : qtrunc q = 0 := by
    rw [qtrunc, if_pos h0]
    rw [Int.floor_eq_zero_iff]
    constructor <;> simpa
  rw [fremEuclid, frem_one, htr]
  norm_num [fltb, not_lt.mpr h0]

theorem fmax_finite (a b : ℚ) :
    fmax (F.finite a) (F.finite b) = F.finite (max a b) := by
  have heq : fmax (F.finite a) (F.finite b) =
      if fltb (F.finite a) (F.finite b) then F.finite b else F.finite a := rfl
  rw [heq]
  by_cases h : a < b
  · rw [if_pos (by simpa [fltb] using h), max_eq_right (le_of_lt h)]
  · rw [if_neg (by simpa [fltb] using h), max_eq_left (not_lt.mp h)]

theorem fmin_finite (a b : ℚ) :
    fmin (F.finite a) (F.finite b) = F.finite (min a b) := by
  have heq : fmin (F.finite a) (F.finite b) =
      if fltb (F.finite b) (F.finite a) then F.finite b else F.finite a := rfl
  rw [heq]
  by_cases h : b < a
  · rw [if_pos (by simpa [fltb] using h), min_eq_right (le_of_lt h)]
  · rw [if_neg (by simpa [fltb] using h), min_eq_left (not_lt.mp h)]

theorem clampF_finite (q lo hi : ℚ) :
    clampF (F.finite q) (F.finite lo) (F.finite hi) = F.finite (min (max q lo) hi) := by
  rw [clampF, fmax_finite, fmin_finite]

theorem clampF_range (lo hi : ℚ) (h : lo ≤ hi) (v : F) :
    ∃ r, clampF v (F.finite lo) (F.finite hi) = F.finite r ∧ lo ≤ r ∧ r ≤ hi := by
  cases v with
  | nan =>
    refine ⟨lo, ?_, le_rfl, h⟩
    rw [clampF]
    have h1 : fmax F.nan (F.finite lo) = F.finite lo := rfl
    rw [h1, fmin_finite, min_eq_left h]
  | inf s =>
    cases s with
    | false =>
      refine ⟨hi, ?_, h, le_rfl⟩
      rw [clampF]
      have h1 : fmax (F.inf false) (F.finite lo) = F.inf false := rfl
      have h2 : fmin (F.inf false) (F.finite hi) = F.finite hi := rfl
      rw [h1, h2]
    | true =>
      refine ⟨lo, ?_, le_rfl, h⟩
      rw [clampF]
      have h1 : fmax (F.inf true) (F.finite lo) = F.finite lo := rfl
      rw [h1, fmin_finite, min_eq_left h]
  | finite q =>
    rw [clampF_finite]
    exact ⟨_, rfl, le_min (le_max_right q lo) h, min_le_right _ _⟩

theorem rne_eq_low (x : ℚ) (n : ℤ) (h1 : (n:ℚ) ≤ x) (h2 : x < (n:ℚ) + 1/2) :
    rne x = n := by
  have hfl : ⌊x⌋ = n := Int.floor_eq_iff.mpr ⟨h1, by linarith⟩
  rw [rne, hfl, if_pos (by linarith)]

theorem rne_eq_high (x : ℚ) (n : ℤ) (h1 : (n:ℚ) + 1/2 < x) (h2 : x < (n:ℚ) + 1) :
    rne x = n + 1 := by
  have hfl : ⌊x⌋ = n := Int.floor_eq_iff.mpr ⟨by linarith, by linarith⟩
  rw [rne, hfl, if_neg (by linarith), if_pos (by linarith)]

theorem rne_eq_tie_even (x : ℚ) (n : ℤ) (h1 : x = (n:ℚ) + 1/2)
    (h2 : Int.emod n 2 = 0) : rne x = n := by
  have hfl : ⌊x⌋ = n := Int.floor_eq_iff.mpr ⟨by linarith, by linarith⟩
  rw [rne, hfl, if_neg (by linarith), if_neg (by linarith),
    if_pos h2]

theorem rne_eq_tie_odd (x : ℚ) (n : ℤ) (h1 : x = (n:ℚ) + 1/2)
    (h2 : Int.emod n 2 = 1) : rne x = n + 1 := by
  have hfl : ⌊x⌋ = n := Int.floor_eq_iff.mpr ⟨by linarith, by linarith⟩
  rw [rne, hfl, if_neg (by linarith), if_neg (by linarith),
    if_neg (by omega)]

theorem fround_eval (q r : ℚ) (k n : ℤ) (hq : q ≠ 0)
    (h1 : qpow2 k ≤ |q|) (h2 : |q| < qpow2 (k + 1))
    (hn : rne (q / qpow2 (max (k - 52) (-1074))) = n)
    (hr : (n : ℚ) * qpow2 (max (k - 52) (-1074)) = r)
    (hb : |r| < qpow2 1024) :
    fround q = F.finite r := by
  have hfl : floorLog2 q = k := floorLog2_eq q k hq h1 h2
  rw [fround, if_neg hq, ulpExp, hfl, hn, hr, if_neg (not_le.mpr hb)]

/-- The binary64 value of the literal `0.9`. -/
theorem lit_09 : lit (9/10) = F.finite (8106479329266893 / 2^53) := by
  rw [lit]
  refine fround_eval (9/10) (8106479329266893 / 2^53) (-1) 8106479329266893
    (by norm_num) ?_ ?_ ?_ ?_ ?_
  · rw [abs_of_pos (show (0:ℚ) < 9/10 by norm_num)]
    norm_num [qpow2_eq_zpow]
  · rw [abs_of_pos (show (0:ℚ) < 9/10 by norm_num)]
    norm_num [qpow2_eq_zpow]
  · rw [show (max (-1 - 52) (-1074) : ℤ) = -53 by norm_num]
    rw [show (8106479329266893 : ℤ) = 8106479329266892 + 1 by norm_num]
    refine rne_eq_high _ 8106479329266892 ?_ ?_ <;> norm_num [qpow2_eq_zpow]
  · rw [show (max (-1 - 52) (-1074) : ℤ) = -53 by norm_num]
    norm_num [qpow2_eq_zpow]
  · rw [abs_of_pos (by norm_num)]
    norm_num [qpow2_eq_zpow]

/-- Adding the smallest subnormal to 1.0 rounds back to 1.0. -/
theorem fround_one_add_tiny : fround (1 + 1/2^1074) = F.finite 1 := by
  refine fround_eval (1 + 1/2^1074) 1 0 (2^52) (by norm_num) ?_ ?_ ?_ ?_ ?_
  · rw [abs_of_pos (by norm_num)]
    norm_num [qpow2_eq_zpow]
  · rw [abs_of_pos (by norm_num)]
    norm_num [qpow2_eq_zpow]
  · rw [show (max (0 - 52) (-1074) : ℤ) = -52 by norm_num]
    refine rne_eq_low _ (2^52) ?_ ?_ <;> norm_num [qpow2_eq_zpow]
  · rw [show (max (0 - 52) (-1074) : ℤ) = -52 by norm_num]
    norm_num [qpow2_eq_zpow]
  · rw [abs_of_pos (by norm_num)]
    norm_num [qpow2_eq_zpow]

/-- Subtracting the smallest subnormal from 1.0 rounds back up to 1.0. -/
theorem fround_one_sub_tiny : fround (1 - 1/2^1074) = F.finite 1 := by
  refine fround_eval (1 - 1/2^1074) 1 (-1) (2^53) (by norm_num) ?_ ?_ ?_ ?_ ?_
  · rw [abs_of_pos (by norm_num)]
    norm_num [qpow2_eq_zpow]
  · rw [abs_of_pos (by norm_num)]
    norm_num [qpow2_eq_zpow]
  · rw [show (max (-1 - 52) (-1074) : ℤ) = -53 by norm_num]
    rw [show (2^53 : ℤ) = (2^53 - 1) + 1 by norm_num]
    refine rne_eq_high _ (2^53 - 1) ?_ ?_ <;> (push_cast; norm_num [qpow2_eq_zpow])
  · rw [show (max (-1 - 52) (-1074) : ℤ) = -53 by norm_num]
    norm_num [qpow2_eq_zpow]
  · rw [abs_of_pos (by norm_num)]
    norm_num [qpow2_eq_zpow]

/-- The binary64 value of the literal `0.3`. -/
theorem lit_03 : lit (3/10) = F.finite (5404319552844595 / 2^54) := by
  rw [lit]
  refine fround_eval (3/10) (5404319552844595 / 2^54) (-2) 5404319552844595
    (by norm_num) ?_ ?_ ?_ ?_ ?_
  · rw [abs_of_pos (show (0:ℚ) < 3/10 by norm_num)]
    norm_num [qpow2_eq_zpow]
  · rw [abs_of_pos (show (0:ℚ) < 3/10 by norm_num)]
    norm_num [qpow2_eq_zpow]
  · rw [show (max (-2 - 52) (-1074) : ℤ) = -54 by norm_num]
    refine rne_eq_low _ 5404319552844595 ?_ ?_ <;> norm_num [qpow2_eq_zpow]
  · rw [show (max (-2 - 52) (-1074) : ℤ) = -54 by norm_num]
    norm_num [qpow2_eq_zpow]
  · rw [abs_of_pos (by norm_num)]
    norm_num [qpow2_eq_zpow]

/-- The binary64 value of the literal `0.2`. -/
theorem lit_02 : lit (2/10) = F.finite (3602879701896397 / 2^54) := by
  rw [lit]
  refine fround_eval (2/10) (3602879701896397 / 2^54) (-3) 7205759403792794
    (by norm_num) ?_ ?_ ?_ ?_ ?_
  · rw [abs_of_pos (show (0:ℚ) < 2/10 by norm_num)]
    norm_num [qpow2_eq_zpow]
  · rw [abs_of_pos (show (0:ℚ) < 2/10 by norm_num)]
    norm_num [qpow2_eq_zpow]
  · rw [show (max (-3 - 52) (-1074) : ℤ) = -55 by norm_num]
    rw [show (7205759403792794 : ℤ) = 7205759403792793 + 1 by norm_num]
    refine rne_eq_high _ 7205759403792793 ?_ ?_ <;> norm_num [qpow2_eq_zpow]
  · rw [show (max (-3 - 52) (-1074) : ℤ) = -55 by norm_num]
    norm_num [qpow2_eq_zpow]
  · rw [abs_of_pos (by norm_num)]
    norm_num [qpow2_eq_zpow]

/-- The binary64 value of the literal `0.5` (exactly representable). -/
theorem lit_05 : lit (5/10) = F.finite (1/2) := by
  rw [lit]
  refine fround_eval (5/10) (1/2) (-1) (2^52) (by norm_num) ?_ ?_ ?_ ?_ ?_
  · rw [abs_of_pos (show (0:ℚ) < 5/10 by norm_num)]
    norm_num [qpow2_eq_zpow]
  · rw [abs_of_pos (show (0:ℚ) < 5/10 by norm_num)]
    norm_num [qpow2_eq_zpow]
  · rw [show (max (-1 - 52) (-1074) : ℤ) = -53 by norm_num]
    refine rne_eq_low _ (2^52) ?_ ?_ <;> norm_num [qpow2_eq_zpow]
  · rw [show (max (-1 - 52) (-1074) : ℤ) = -53 by norm_num]
    norm_num [qpow2_eq_zpow]
  · rw [abs_of_pos (by norm_num)]
    norm_num [qpow2_eq_zpow]

/-- Rounding the exact value 1 is exact. -/
theorem fround_one : fround 1 = F.finite 1 := by
  refine fround_eval 1 1 0 (2^52) (by norm_num) ?_ ?_ ?_ ?_ ?_
  · rw [abs_of_pos (by norm_num)]
    norm_num [qpow2_eq_zpow]
  · rw [abs_of_pos (by norm_num)]
    norm_num [qpow2_eq_zpow]
  · rw [show (max (0 - 52) (-1074) : ℤ) = -52 by norm_num]
    refine rne_eq_low _ (2^52) ?_ ?_ <;> norm_num [qpow2_eq_zpow]
  · rw [show (max (0 - 52) (-1074) : ℤ) = -52 by norm_num]
    norm_num [qpow2_eq_zpow]
  · rw [abs_of_pos (by norm_num)]
    norm_num [qpow2_eq_zpow]

/-- Rounding the exact value 3/2 is exact. -/
theorem fround_three_halves : fround (3/2) = F.finite (3/2) := by
  refine fround_eval (3/2) (3/2) 0 (3 * 2^51) (by norm_num) ?_ ?_ ?_ ?_ ?_
  · rw [abs_of_pos (by norm_num)]
    norm_num [qpow2_eq_zpow]
  · rw [abs_of_pos (by norm_num)]
    norm_num [qpow2_eq_zpow]
  · rw [show (max (0 - 52) (-1074) : ℤ) = -52 by norm_num]
    refine rne_eq_low _ (3 * 2^51) ?_ ?_ <;> norm_num [qpow2_eq_zpow]
  · rw [show (max (0 - 52) (-1074) : ℤ) = -52 by norm_num]
    norm_num [qpow2_eq_zpow]
  · rw [abs_of_pos (by norm_num)]
    norm_num [qpow2_eq_zpow]

/-- Rounding the exact value 2 is exact. -/
theorem fround_two : fround 2 = F.finite 2 := by
  refine fround_eval 2 2 1 (2^52) (by norm_num) ?_ ?_ ?_ ?_ ?_
  · rw [abs_of_pos (by norm_num)]
    norm_num [qpow2_eq_zpow]
  · rw [abs_of_pos (by norm_num)]
    norm_num [qpow2_eq_zpow]
  · rw [show (max (1 - 52) (-1074) : ℤ) = -51 by norm_num]
    refine rne_eq_low _ (2^52) ?_ ?_ <;> norm_num [qpow2_eq_zpow]
  · rw [show (max (1 - 52) (-1074) : ℤ) = -51 by norm_num]
    norm_num [qpow2_eq_zpow]
  · rw [abs_of_pos (by norm_num)]
    norm_num [qpow2_eq_zpow]

/-- The binary64 value of the literal `-0.9`. -/
theorem lit_neg09 : lit (-(9/10)) = F.finite (-(8106479329266893 / 2^53)) := by
  rw [lit]
  refine fround_eval (-(9/10)) (-(8106479329266893 / 2^53)) (-1) (-8106479329266893)
    (by norm_num) ?_ ?_ ?_ ?_ ?_
  · rw [abs_of_neg (show (-(9/10):ℚ) < 0 by norm_num)]
    norm_num [qpow2_eq_zpow]
  · rw [abs_of_neg (show (-(9/10):ℚ) < 0 by norm_num)]
    norm_num [qpow2_eq_zpow]
  · rw [show (max (-1 - 52) (-1074) : ℤ) = -53 by norm_num]
    refine rne_eq_low _ (-8106479329266893) ?_ ?_ <;> (push_cast; norm_num [qpow2_eq_zpow])
  · rw [show (max (-1 - 52) (-1074) : ℤ) = -53 by norm_num]
    push_cast
    norm_num [qpow2_eq_zpow]
  · rw [abs_of_neg (by norm_num)]
    norm_num [qpow2_eq_zpow]

/-- The binary64 value of the literal `-1.0` (exactly representable). -/
theorem lit_neg_one : lit (-1) = F.finite (-1) := by
  rw [lit]
  refine fround_eval (-1) (-1) 0 (-(2^52)) (by norm_num) ?_ ?_ ?_ ?_ ?_
  · rw [abs_of_neg (show (-1:ℚ) < 0 by norm_num)]
    norm_num [qpow2_eq_zpow]
  · rw [abs_of_neg (show (-1:ℚ) < 0 by norm_num)]
    norm_num [qpow2_eq_zpow]
  · rw [show (max (0 - 52) (-1074) : ℤ) = -52 by norm_num]
    refine rne_eq_low _ (-(2^52)) ?_ ?_ <;> (push_cast; norm_num [qpow2_eq_zpow])
  · rw [show (max (0 - 52) (-1074) : ℤ) = -52 by norm_num]
    push_cast
    norm_num [qpow2_eq_zpow]
  · rw [abs_of_neg (by norm_num)]
    norm_num [qpow2_eq_zpow]

/-- The exact sum `0.9 + 0.5` (a round-to-even tie) rounds to
`6305039478318694 * 2^-52`, which exceeds 1. -/
theorem fround_tie95 :
    fround (12610078956637389 / 2^53) = F.finite (3152519739159347 / 2^51) := by
  refine fround_eval (12610078956637389 / 2^53) (3152519739159347 / 2^51) 0
    6305039478318694 (by norm_num) ?_ ?_ ?_ ?_ ?_
  · rw [abs_of_pos (by norm_num)]
    norm_num [qpow2_eq_zpow]
  · rw [abs_of_pos (by norm_num)]
    norm_num [qpow2_eq_zpow]
  · rw [show (max (0 - 52) (-1074) : ℤ) = -52 by norm_num]
    refine rne_eq_tie_even _ 6305039478318694 ?_ ?_
    · norm_num [qpow2_eq_zpow]
    · decide
  · rw [show (max (0 - 52) (-1074) : ℤ) = -52 by norm_num]
    norm_num [qpow2_eq_zpow]
  · rw [abs_of_pos (by norm_num)]
    norm_num [qpow2_eq_zpow]

/-- The exact difference `-0.9 - 0.5` (a tie at an odd significand) rounds
to `-6305039478318694 * 2^-52`, below -1. -/
theorem fround_tie95_neg :
    fround (-(12610078956637389 / 2^53)) = F.finite (-(3152519739159347 / 2^51)) := by
  refine fround_eval (-(12610078956637389 / 2^53)) (-(3152519739159347 / 2^51)) 0
    (-6305039478318694) (by norm_num) ?_ ?_ ?_ ?_ ?_
  · rw [abs_of_neg (show (-(12610078956637389 / 2^53) : ℚ) < 0 by norm_num)]
    norm_num [qpow2_eq_zpow]
  · rw [abs_of_neg (show (-(12610078956637389 / 2^53) : ℚ) < 0 by norm_num)]
    norm_num [qpow2_eq_zpow]
  · rw [show (max (0 - 52) (-1074) : ℤ) = -52 by norm_num]
    rw [show (-6305039478318694 : ℤ) = -6305039478318695 + 1 by norm_num]
    refine rne_eq_tie_odd _ (-6305039478318695) ?_ ?_
    · push_cast
      norm_num [qpow2_eq_zpow]
    · decide
  · rw [show (max (0 - 52) (-1074) : ℤ) = -52 by norm_num]
    push_cast
    norm_num [qpow2_eq_zpow]
  · rw [abs_of_neg (by norm_num)]
    norm_num [qpow2_eq_zpow]

/-- The exact sum `0.9 + 0.3` rounds down to `5404319552844595 * 2^-52`,
not to the real value 1.2. -/
theorem fround_sum93 :
    fround (21617278211378381 / 2^54) = F.finite (5404319552844595 / 2^52) := by
  refine fround_eval (21617278211378381 / 2^54) (5404319552844595 / 2^52) 0
    5404319552844595 (by norm_num) ?_ ?_ ?_ ?_ ?_
  · rw [abs_of_pos (by norm_num)]
    norm_num [qpow2_eq_zpow]
  · rw [abs_of_pos (by norm_num)]
    norm_num [qpow2_eq_zpow]
  · rw [show (max (0 - 52) (-1074) : ℤ) = -52 by norm_num]
    refine rne_eq_low _ 5404319552844595 ?_ ?_ <;> norm_num [qpow2_eq_zpow]
  · rw [show (max (0 - 52) (-1074) : ℤ) = -52 by norm_num]
    norm_num [qpow2_eq_zpow]
  · rw [abs_of_pos (by norm_num)]
    norm_num [qpow2_eq_zpow]

/-! Small definitional helpers for the wrappers. -/

theorem fadd_finite (a b : ℚ) : fadd (F.finite a) (F.finite b) = fround (a + b) := rfl

theorem fmul_finite (a b : ℚ) : fmul (F.finite a) (F.finite b) = fround (a * b) := rfl

theorem fneg_finite (a : ℚ) : fneg (F.finite a) = F.finite (-a) := rfl

theorem fsub_finite (a b : ℚ) : fsub (F.finite a) (F.finite b) = fround (a + -b) := rfl

theorem feqb_finite (a b : ℚ) : feqb (F.finite a) (F.finite b) = decide (a = b) := rfl

theorem feqb_finite_true (a b : ℚ) (h : a = b) :
    feqb (F.finite a) (F.finite b) = true := by
  rw [feqb_finite]
  exact decide_eq_true h

theorem feqb_finite_false (a b : ℚ) (h : a ≠ b) :
    feqb (F.finite a) (F.finite b) = false := by
  rw [feqb_finite]
  exact decide_eq_false h

theorem uni_new_val (v : F) :
    (UnipolarFloat.new v).val = clampF v (F.finite 0) (F.finite 1) := rfl

theorem bi_new_val (v : F) :
    (BipolarFloat.new v).val = clampF v (F.finite (-1)) (F.finite 1) := rfl

theorem phase_new_val (v : F) :
    (Phase.new v).val = fremEuclid v (F.finite 1) := rfl

/-- Wrapping a value `q` with `n ≤ q < n+1`, `q ≥ 0`, is the exact
translation `q - n`: fmod is exact and the result is non-negative, so the
rounded re-add branch of `rem_euclid` is not taken. -/
theorem wrap_exact_shift (q : ℚ) (n : ℤ) (hs : 0 ≤ q) (h0 : (n:ℚ) ≤ q)
    (h1 : q < (n:ℚ) + 1) :
    fremEuclid (F.finite q) (F.finite 1) = F.finite (q - (n:ℚ)) := by
  have htr : qtrunc q = n := by
    rw [qtrunc, if_pos hs]
    exact Int.floor_eq_iff.mpr ⟨h0, by linarith⟩
  have hcond : fltb (F.finite (q - (n:ℚ))) (F.finite 0) = false := by
    have : ¬ (q - (n:ℚ) < 0) := by linarith
    simpa [fltb] using this
  rw [fremEuclid, frem_one, htr, hcond, if_neg Bool.false_ne_true]

theorem wrap_one : fremEuclid (F.finite 1) (F.finite 1) = F.finite 0 := by
  have h := wrap_exact_shift 1 1 (by norm_num) (by norm_num) (by norm_num)
  simpa using h

/-- Wrapping a negative non-integer `q` with `m ≤ -q < m+1` takes the
rounded re-add branch: the result is the IEEE-rounded value of `q + m + 1`. -/
theorem wrap_neg_eval (q : ℚ) (m : ℤ) (hq : q < 0) (h0 : (m:ℚ) ≤ -q)
    (h1 : -q < (m:ℚ) + 1) (hne : q + (m:ℚ) < 0) :
    fremEuclid (F.finite q) (F.finite 1) = fround (q + (m:ℚ) + 1) := by
  have htr : qtrunc q = -m := by
    rw [qtrunc, if_neg (not_le.mpr hq)]
    have : ⌊-q⌋ = m := Int.floor_eq_iff.mpr ⟨h0, by linarith⟩
    rw [this]
  have hval : q - (qtrunc q : ℚ) = q + (m:ℚ) := by
    rw [htr]
    push_cast
    ring
  have hcond : fltb (F.finite (q - (qtrunc q : ℚ))) (F.finite 0) = true := by
    rw [hval]
    simpa [fltb] using hne
  have habs : fabs (F.finite 1) = F.finite 1 := by
    have : |(1:ℚ)| = 1 := abs_one
    simp [fabs, this]
  rw [fremEuclid, frem_one, hcond, if_pos rfl, habs, hval, fadd_finite]

/-- Wrapping minus the smallest subnormal yields exactly 1.0: fmod returns
the value unchanged, and the re-add `r + 1.0` rounds up to 1.0. -/
theorem wrap_neg_tiny :
    fremEuclid (F.finite (-(1/2^1074))) (F.finite 1) = F.finite 1 := by
  have h := wrap_neg_eval (-(1/2^1074)) 0 (by norm_num) (by norm_num) (by norm_num)
    (by norm_num)
  rw [h, show (-(1/2^1074) + ((0:ℤ):ℚ) + 1 : ℚ) = 1 - 1/2^1074 by push_cast; ring]
  exact fround_one_sub_tiny

theorem phase_new_nan : (Phase.new F.nan).val = F.nan := rfl

theorem phase_new_inf (s : Bool) : (Phase.new (F.inf s)).val = F.nan := rfl

/-- The wrap result of any finite input is finite and within [0.0, 1.0]. -/
theorem phase_new_finite (q : ℚ) :
    ∃ r, (Phase.new (F.finite q)).val = F.finite r ∧ 0 ≤ r ∧ r ≤ 1 := by
  rw [phase_new_val]
  exact wrap_range q

/-! Claim theorems. -/

/-- Claim C1: the serde-derived decoder for the three
newtype structs reads the bare number straight into the field, so decoding
2.0 into UnipolarFloat stores 2.0 while the constructor clamps to 1.0, and
decoding 1.5 into Phase stores 1.5 while the constructor wraps to 0.5.  The
decoded value differs from the normalized one, contradicting the claim. -/
theorem claim_C1 :
    (deserializeUnipolarFloat (F.finite 2)).val = F.finite 2 ∧
    (UnipolarFloat.new (F.finite 2)).val = F.finite 1 ∧
    UnipolarFloat.beq (deserializeUnipolarFloat (F.finite 2))
      (UnipolarFloat.new (F.finite 2)) = false ∧
    (deserializePhase (F.finite (3/2))).val = F.finite (3/2) ∧
    (Phase.new (F.finite (3/2))).val = F.finite (1/2) ∧
    Phase.beq (deserializePhase (F.finite (3/2))) (Phase.new (F.finite (3/2))) = false := by
  have hw : (Phase.new (F.finite (3/2))).val = F.finite (1/2) := by
    rw [phase_new_val]
    have h := wrap_exact_shift (3/2) 1 (by norm_num) (by norm_num) (by norm_num)
    rw [h]
    norm_num
  refine ⟨rfl, by decide, by decide, rfl, hw, ?_⟩
  show feqb (F.finite (3/2)) ((Phase.new (F.finite (3/2))).val) = false
  rw [hw]
  exact feqb_finite_false _ _ (by norm_num)

/-- Claim C9: constructing the clamping types from NaN resolves to the
lower bound, because `f64::max(NaN, lo)` returns `lo` (NaN-ignoring) and
then `f64::min(lo, hi)` returns `lo`. -/
theorem claim_C9 :
    (UnipolarFloat.new F.nan).val = F.finite 0 ∧
    (BipolarFloat.new F.nan).val = F.finite (-1) ∧
    fmax F.nan (F.finite 0) = F.finite 0 ∧
    fmax F.nan (F.finite (-1)) = F.finite (-1) := by
  exact ⟨by decide, by decide, rfl, rfl⟩

/-- Claim C10: `Phase::new` on NaN or an infinity stores NaN (fmod of a
non-finite value is NaN and the negative branch is not taken), and dividing
any Phase by `UnipolarFloat::ZERO` yields a Phase whose inner value is NaN,
which is outside [0.0, 1.0] under IEEE comparisons. -/
theorem claim_C10 :
    (Phase.new F.nan).val = F.nan ∧
    (∀ s : Bool, (Phase.new (F.inf s)).val = F.nan) ∧
    (∀ p : Phase, (Phase.div p UnipolarFloat.ZERO).val = F.nan) ∧
    (∀ p : Phase, fleb (F.finite 0) ((Phase.div p UnipolarFloat.ZERO).val) = false ∧
      fleb ((Phase.div p UnipolarFloat.ZERO).val) (F.finite 1) = false) := by
  have hdiv : ∀ p : Phase, (Phase.div p UnipolarFloat.ZERO).val = F.nan := by
    intro p
    obtain ⟨v⟩ := p
    cases v with
    | nan => rfl
    | inf s => cases s <;> rfl
    | finite q =>
      by_cases hq : q = 0
      · subst hq
        rfl
      · show (Phase.new (fdiv (F.finite q) (F.finite 0))).val = F.nan
        have h1 : fdiv (F.finite q) (F.finite 0) = F.inf (decide (q < 0)) := by
          simp only [fdiv]
          rw [if_pos trivial, if_neg hq]
        rw [h1]
        exact phase_new_inf _
  refine ⟨rfl, fun s => phase_new_inf s, hdiv, fun p => ?_⟩
  rw [hdiv p]
  exact ⟨rfl, rfl⟩

theorem lit_one : lit 1 = F.finite 1 := fround_one

theorem uni_new_eval (q : ℚ) (h0 : 0 ≤ q) (h1 : q ≤ 1) :
    (UnipolarFloat.new (F.finite q)).val = F.finite q := by
  rw [uni_new_val, clampF_finite, max_eq_left h0, min_eq_left h1]

theorem bi_new_eval (q : ℚ) (h0 : -1 ≤ q) (h1 : q ≤ 1) :
    (BipolarFloat.new (F.finite q)).val = F.finite q := by
  rw [bi_new_val, clampF_finite, max_eq_left h0, min_eq_left h1]

theorem uni_add_val (x y : UnipolarFloat) :
    (UnipolarFloat.add x y).val = clampF (fadd x.val y.val) (F.finite 0) (F.finite 1) := rfl

theorem uni_sub_val (x y : UnipolarFloat) :
    (UnipolarFloat.sub x y).val =
      clampF (fadd x.val (fneg y.val)) (F.finite 0) (F.finite 1) := rfl

theorem bi_add_val (x y : BipolarFloat) :
    (BipolarFloat.add x y).val =
      clampF (fadd x.val y.val) (F.finite (-1)) (F.finite 1) := rfl

theorem bi_sub_val (x y : BipolarFloat) :
    (BipolarFloat.sub x y).val =
      clampF (fadd x.val (fneg y.val)) (F.finite (-1)) (F.finite 1) := rfl

/-- Claim C2 counterexample: `Phase::new(-2^-1074)` stores exactly 1.0 —
fmod returns `-2^-1074` unchanged, and the re-add `-2^-1074 + 1.0` rounds
up to 1.0 — so `new` does reach the boundary 1.0 and the strict bound
`val < 1.0` is false for this finite input; the result even compares equal
to `Phase::ONE`. -/
theorem claim_C2_counterexample :
    (Phase.new (F.finite (-(1/2^1074)))).val = F.finite 1 ∧
    Phase.beq (Phase.new (F.finite (-(1/2^1074)))) Phase.ONE = true := by
  have h : (Phase.new (F.finite (-(1/2^1074)))).val = F.finite 1 := by
    rw [phase_new_val]
    exact wrap_neg_tiny
  refine ⟨h, ?_⟩
  show feqb (Phase.new (F.finite (-(1/2^1074)))).val (F.finite 1) = true
  rw [h]
  exact feqb_finite_true _ _ rfl

/-- Claim C2 (amended): for every finite float v, `Phase::new(v).val()` is
non-negative and at most 1.0 — but not always strictly below 1.0: the
boundary 1.0 can also be reached through `new` when the wrap's rounded
re-add lands on 1.0 (see the counterexample), not only through `ONE`.
`Phase::new(1.0).val() == 0.0` and `Phase::ONE.val() == 1.0` hold. -/
theorem claim_C2 :
    (∀ q : ℚ, ∃ r, (Phase.new (F.finite q)).val = F.finite r ∧ 0 ≤ r ∧ r ≤ 1) ∧
    (Phase.new (F.finite 1)).val = F.finite 0 ∧
    Phase.ONE.val = F.finite 1 := by
  refine ⟨phase_new_finite, ?_, rfl⟩
  rw [phase_new_val, wrap_one]

/-- Claim C3: `UnipolarFloat::new` clamps any finite value into [0.0, 1.0]:
the result equals v for v already in range, 0.0 for v below, 1.0 for v
above; `BipolarFloat::new` does the same with bounds -1.0 and 1.0. -/
theorem claim_C3 (q : ℚ) :
    (∃ r, (UnipolarFloat.new (F.finite q)).val = F.finite r ∧ 0 ≤ r ∧ r ≤ 1) ∧
    (0 ≤ q → q ≤ 1 → (UnipolarFloat.new (F.finite q)).val = F.finite q) ∧
    (q < 0 → (UnipolarFloat.new (F.finite q)).val = F.finite 0) ∧
    (1 < q → (UnipolarFloat.new (F.finite q)).val = F.finite 1) ∧
    (∃ r, (BipolarFloat.new (F.finite q)).val = F.finite r ∧ -1 ≤ r ∧ r ≤ 1) ∧
    (-1 ≤ q → q ≤ 1 → (BipolarFloat.new (F.finite q)).val = F.finite q) ∧
    (q < -1 → (BipolarFloat.new (F.finite q)).val = F.finite (-1)) ∧
    (1 < q → (BipolarFloat.new (F.finite q)).val = F.finite 1) := by
  have hu : (UnipolarFloat.new (F.finite q)).val = F.finite (min (max q 0) 1) := by
    rw [uni_new_val, clampF_finite]
  have hb : (BipolarFloat.new (F.finite q)).val = F.finite (min (max q (-1)) 1) := by
    rw [bi_new_val, clampF_finite]
  refine ⟨⟨_, hu, le_min (le_max_right q 0) (by norm_num), min_le_right _ _⟩,
    fun h0 h1 => uni_new_eval q h0 h1,
    fun h => by rw [hu, max_eq_right (le_of_lt h), min_eq_left (by norm_num)],
    fun h => by rw [hu, max_eq_left (by linarith), min_eq_right (le_of_lt h)],
    ⟨_, hb, le_min (le_max_right q (-1)) (by norm_num), min_le_right _ _⟩,
    fun h0 h1 => bi_new_eval q h0 h1,
    fun h => by rw [hb, max_eq_right (le_of_lt h), min_eq_left (by norm_num)],
    fun h => by rw [hb, max_eq_left (by linarith), min_eq_right (le_of_lt h)]⟩

theorem claim_C3_witness :
    (UnipolarFloat.new (F.finite (1/2))).val = F.finite (1/2) ∧
    (UnipolarFloat.new (F.finite (-2))).val = F.finite 0 ∧
    (UnipolarFloat.new (F.finite (3/2))).val = F.finite 1 ∧
    (BipolarFloat.new (F.finite (-2))).val = F.finite (-1) := by
  refine ⟨(claim_C3 (1/2)).2.1 (by norm_num) (by norm_num),
    (claim_C3 (-2)).2.2.1 (by norm_num),
    (claim_C3 (3/2)).2.2.2.1 (by norm_num),
    (claim_C3 (-2)).2.2.2.2.2.2.1 (by norm_num)⟩

/-- Claim C4: addition and subtraction of the clamping types compute the
raw IEEE sum or difference and clamp it into range (saturating); whatever
the operands, the result is finite and in range.  At the claim's examples,
`UnipolarFloat::new(0.9) + UnipolarFloat::new(0.5) == UnipolarFloat::new(1.0)`
and `BipolarFloat::new(-0.9) - BipolarFloat::new(0.5) == BipolarFloat::new(-1.0)`. -/
theorem claim_C4 :
    (∀ a b : ℚ, ∃ r, (UnipolarFloat.add ⟨F.finite a⟩ ⟨F.finite b⟩).val = F.finite r ∧
      0 ≤ r ∧ r ≤ 1) ∧
    (∀ a b : ℚ, ∃ r, (UnipolarFloat.sub ⟨F.finite a⟩ ⟨F.finite b⟩).val = F.finite r ∧
      0 ≤ r ∧ r ≤ 1) ∧
    (∀ a b : ℚ, ∃ r, (BipolarFloat.add ⟨F.finite a⟩ ⟨F.finite b⟩).val = F.finite r ∧
      -1 ≤ r ∧ r ≤ 1) ∧
    (∀ a b : ℚ, ∃ r, (BipolarFloat.sub ⟨F.finite a⟩ ⟨F.finite b⟩).val = F.finite r ∧
      -1 ≤ r ∧ r ≤ 1) ∧
    UnipolarFloat.beq
      (UnipolarFloat.add (UnipolarFloat.new (lit (9/10))) (UnipolarFloat.new (lit (5/10))))
      (UnipolarFloat.new (lit 1)) = true ∧
    BipolarFloat.beq
      (BipolarFloat.sub (BipolarFloat.new (lit (-(9/10)))) (BipolarFloat.new (lit (5/10))))
      (BipolarFloat.new (lit (-1))) = true := by
  have hadd : (UnipolarFloat.add (UnipolarFloat.new (lit (9/10)))
      (UnipolarFloat.new (lit (5/10)))).val = F.finite 1 := by
    rw [lit_09, lit_05, uni_add_val,
      uni_new_eval (8106479329266893/2^53) (by norm_num) (by norm_num),
      uni_new_eval (1/2) (by norm_num) (by norm_num), fadd_finite,
      show (8106479329266893/2^53 + 1/2 : ℚ) = 12610078956637389/2^53 by norm_num,
      fround_tie95, clampF_finite, max_eq_left (by norm_num),
      min_eq_right (by norm_num)]
  have hsub : (BipolarFloat.sub (BipolarFloat.new (lit (-(9/10))))
      (BipolarFloat.new (lit (5/10)))).val = F.finite (-1) := by
    rw [lit_neg09, lit_05, bi_sub_val,
      bi_new_eval (-(8106479329266893/2^53)) (by norm_num) (by norm_num),
      bi_new_eval (1/2) (by norm_num) (by norm_num), fneg_finite, fadd_finite,
      show (-(8106479329266893/2^53) + -(1/2) : ℚ) = -(12610078956637389/2^53) by norm_num,
      fround_tie95_neg, clampF_finite, max_eq_right (by norm_num),
      min_eq_left (by norm_num)]
  refine ⟨fun a b => clampF_range 0 1 (by norm_num) _,
    fun a b => clampF_range 0 1 (by norm_num) _,
    fun a b => clampF_range (-1) 1 (by norm_num) _,
    fun a b => clampF_range (-1) 1 (by norm_num) _, ?_, ?_⟩
  · show feqb (UnipolarFloat.add (UnipolarFloat.new (lit (9/10)))
      (UnipolarFloat.new (lit (5/10)))).val (UnipolarFloat.new (lit 1)).val = true
    rw [hadd, lit_one, uni_new_eval 1 (by norm_num) (by norm_num)]
    exact feqb_finite_true _ _ rfl
  · show feqb (BipolarFloat.sub (BipolarFloat.new (lit (-(9/10))))
      (BipolarFloat.new (lit (5/10)))).val (BipolarFloat.new (lit (-1))).val = true
    rw [hsub, lit_neg_one, bi_new_eval (-1) (by norm_num) (by norm_num)]
    exact feqb_finite_true _ _ rfl

theorem qpow2_zero : qpow2 0 = 1 := by
  rw [qpow2_eq_zpow]
  norm_num

theorem qpow2_one : qpow2 1 = 2 := by
  rw [qpow2_eq_zpow]
  norm_num

/-- Product of two binary64 values of magnitude at most 1 rounds to a value
of magnitude at most 1: rounding cannot cross the representable bound. -/
theorem fmul_box (a b : ℚ) (ha : |a| ≤ 1) (hb : |b| ≤ 1) :
    ∃ r, fmul (F.finite a) (F.finite b) = F.finite r ∧ |r| ≤ 1 := by
  rw [fmul_finite]
  have h : |a * b| ≤ qpow2 0 := by
    rw [qpow2_zero, abs_mul]
    calc |a| * |b| ≤ 1 * 1 := mul_le_mul ha hb (abs_nonneg b) (by norm_num)
      _ = 1 := by norm_num
  obtain ⟨r, hr, hrle⟩ := fround_abs_le 0 (by norm_num) (by norm_num) _ h
  rw [qpow2_zero] at hrle
  exact ⟨r, hr, hrle⟩

/-- Claim C6: for operands satisfying their type invariants, the unclamped
multiplications stay in range: UnipolarFloat*UnipolarFloat in [0,1],
BipolarFloat*UnipolarFloat and BipolarFloat*BipolarFloat in [-1,1], and
Phase*UnipolarFloat in [0,1], with no clamp or wrap performed; multiplying
a UnipolarFloat by a raw float yields a raw float that is not re-normalized
(here `1.0 * 2.0 = 2.0`, outside the unipolar range). -/
theorem claim_C6 (u1 u2 b1 b2 p : ℚ)
    (hu1a : 0 ≤ u1) (hu1b : u1 ≤ 1) (hu2a : 0 ≤ u2) (hu2b : u2 ≤ 1)
    (hb1a : -1 ≤ b1) (hb1b : b1 ≤ 1) (hb2a : -1 ≤ b2) (hb2b : b2 ≤ 1)
    (hpa : 0 ≤ p) (hpb : p ≤ 1) :
    (∃ r, (UnipolarFloat.mul ⟨F.finite u1⟩ ⟨F.finite u2⟩).val = F.finite r ∧
      0 ≤ r ∧ r ≤ 1) ∧
    (∃ r, (BipolarFloat.mulUni ⟨F.finite b1⟩ ⟨F.finite u1⟩).val = F.finite r ∧
      -1 ≤ r ∧ r ≤ 1) ∧
    (∃ r, (BipolarFloat.mul ⟨F.finite b1⟩ ⟨F.finite b2⟩).val = F.finite r ∧
      -1 ≤ r ∧ r ≤ 1) ∧
    (∃ r, (Phase.mulUni ⟨F.finite p⟩ ⟨F.finite u1⟩).val = F.finite r ∧
      0 ≤ r ∧ r ≤ 1) ∧
    UnipolarFloat.mulF64 UnipolarFloat.ONE (F.finite 2) = F.finite 2 := by
  have habs_u1 : |u1| ≤ 1 := abs_le.mpr ⟨by linarith, hu1b⟩
  have habs_u2 : |u2| ≤ 1 := abs_le.mpr ⟨by linarith, hu2b⟩
  have habs_b1 : |b1| ≤ 1 := abs_le.mpr ⟨hb1a, hb1b⟩
  have habs_b2 : |b2| ≤ 1 := abs_le.mpr ⟨hb2a, hb2b⟩
  have habs_p : |p| ≤ 1 := abs_le.mpr ⟨by linarith, hpb⟩
  refine ⟨?_, ?_, ?_, ?_, ?_⟩
  · obtain ⟨r, hr, hrabs⟩ := fmul_box u1 u2 habs_u1 habs_u2
    refine ⟨r, hr, ?_, (abs_le.mp hrabs).2⟩
    have hfr : fround (u1 * u2) = F.finite r := (fmul_finite u1 u2).symm.trans hr
    exact fround_nonneg _ (mul_nonneg hu1a hu2a) r hfr
  · obtain ⟨r, hr, hrabs⟩ := fmul_box b1 u1 habs_b1 habs_u1
    exact ⟨r, hr, (abs_le.mp hrabs).1, (abs_le.mp hrabs).2⟩
  · obtain ⟨r, hr, hrabs⟩ := fmul_box b1 b2 habs_b1 habs_b2
    exact ⟨r, hr, (abs_le.mp hrabs).1, (abs_le.mp hrabs).2⟩
  · obtain ⟨r, hr, hrabs⟩ := fmul_box p u1 habs_p habs_u1
    refine ⟨r, hr, ?_, (abs_le.mp hrabs).2⟩
    have hfr : fround (p * u1) = F.finite r := (fmul_finite p u1).symm.trans hr
    exact fround_nonneg _ (mul_nonneg hpa hu1a) r hfr
  · show fmul (F.finite 1) (F.finite 2) = F.finite 2
    rw [fmul_finite, show (1 * 2 : ℚ) = 2 by norm_num]
    exact fround_two

theorem claim_C6_witness :
    (∃ r, (UnipolarFloat.mul ⟨F.finite (1/2)⟩ ⟨F.finite (1/2)⟩).val = F.finite r ∧
      0 ≤ r ∧ r ≤ 1) ∧
    (∃ r, (BipolarFloat.mulUni ⟨F.finite (-(1/2))⟩ ⟨F.finite (1/2)⟩).val = F.finite r ∧
      -1 ≤ r ∧ r ≤ 1) ∧
    (∃ r, (BipolarFloat.mul ⟨F.finite (-(1/2))⟩ ⟨F.finite (3/4)⟩).val = F.finite r ∧
      -1 ≤ r ∧ r ≤ 1) ∧
    (∃ r, (Phase.mulUni ⟨F.finite (1/2)⟩ ⟨F.finite (1/2)⟩).val = F.finite r ∧
      0 ≤ r ∧ r ≤ 1) ∧
    UnipolarFloat.mulF64 UnipolarFloat.ONE (F.finite 2) = F.finite 2 :=
  claim_C6 (1/2) (1/2) (-(1/2)) (3/4) (1/2) (by norm_num) (by norm_num) (by norm_num)
    (by norm_num) (by norm_num) (by norm_num) (by norm_num) (by norm_num)
    (by norm_num) (by norm_num)

theorem phase_new_lit09 :
    (Phase.new (lit (9/10))).val = F.finite (8106479329266893/2^53) := by
  rw [lit_09, phase_new_val]
  have h := wrap_exact_shift (8106479329266893/2^53) 0 (by norm_num) (by norm_num)
    (by norm_num)
  simpa using h

theorem phase_new_lit03 :
    (Phase.new (lit (3/10))).val = F.finite (5404319552844595/2^54) := by
  rw [lit_03, phase_new_val]
  have h := wrap_exact_shift (5404319552844595/2^54) 0 (by norm_num) (by norm_num)
    (by norm_num)
  simpa using h

theorem phase_new_lit02 :
    (Phase.new (lit (2/10))).val = F.finite (3602879701896397/2^54) := by
  rw [lit_02, phase_new_val]
  have h := wrap_exact_shift (3602879701896397/2^54) 0 (by norm_num) (by norm_num)
    (by norm_num)
  simpa using h

/-- The f64 evaluation of `Phase::new(0.9) + Phase::new(0.3)`: the rounded
sum `1.1999999999999999556` wraps to `0.19999999999999995559`, one ulp-half
below the binary64 value of the literal 0.2. -/
theorem phase_add_93 :
    (Phase.add (Phase.new (lit (9/10))) (Phase.new (lit (3/10)))).val =
      F.finite (900719925474099/2^52) := by
  show (Phase.new (fadd (Phase.new (lit (9/10))).val (Phase.new (lit (3/10))).val)).val =
    F.finite (900719925474099/2^52)
  rw [phase_new_lit09, phase_new_lit03, fadd_finite,
    show (8106479329266893/2^53 + 5404319552844595/2^54 : ℚ) = 21617278211378381/2^54
      by norm_num,
    fround_sum93, phase_new_val,
    wrap_exact_shift (5404319552844595/2^52) 1 (by norm_num) (by norm_num) (by norm_num)]
  congr 1
  push_cast
  norm_num

/-- Claim C5 counterexample: `Phase::new(0.9) + Phase::new(0.3)` is NOT
equal to `Phase::new(0.2)`: the f64 sum `0.9 + 0.3` rounds down to
`1.1999999999999999556`, which wraps to `0.19999999999999995559`, while
`Phase::new(0.2)` is `0.20000000000000001110`. -/
theorem claim_C5_counterexample :
    Phase.beq (Phase.add (Phase.new (lit (9/10))) (Phase.new (lit (3/10))))
      (Phase.new (lit (2/10))) = false := by
  show feqb (Phase.add (Phase.new (lit (9/10))) (Phase.new (lit (3/10)))).val
    (Phase.new (lit (2/10))).val = false
  rw [phase_add_93, phase_new_lit02]
  exact feqb_finite_false _ _ (by norm_num)

/-- Claim C5 (amended): adding a Phase or a raw float to a Phase computes
the raw IEEE sum and wraps it into [0.0, 1.0] (never saturates).  The
claim's example only holds up to rounding: `Phase::new(0.9) + Phase::new(0.3)`
equals the wrap of the rounded f64 sum, `0.19999999999999995559…`
(`900719925474099 * 2^-52`), which differs from `Phase::new(0.2)` by half
an ulp. -/
theorem claim_C5 :
    (∀ a b : ℚ, 0 ≤ a → a ≤ 1 → 0 ≤ b → b ≤ 1 →
      ∃ r, (Phase.add ⟨F.finite a⟩ ⟨F.finite b⟩).val = F.finite r ∧ 0 ≤ r ∧ r ≤ 1) ∧
    (∀ a b s : ℚ, fadd (F.finite a) (F.finite b) = F.finite s →
      ∃ r, (Phase.addF64 ⟨F.finite a⟩ (F.finite b)).val = F.finite r ∧ 0 ≤ r ∧ r ≤ 1) ∧
    (Phase.add (Phase.new (lit (9/10))) (Phase.new (lit (3/10)))).val =
      F.finite (900719925474099/2^52) := by
  refine ⟨?_, ?_, phase_add_93⟩
  · intro a b ha1 ha2 hb1 hb2
    show ∃ r, (Phase.new (fadd (F.finite a) (F.finite b))).val = F.finite r ∧ 0 ≤ r ∧ r ≤ 1
    rw [fadd_finite]
    have habs : |a + b| ≤ qpow2 1 := by
      rw [qpow2_one, abs_le]
      constructor <;> linarith
    obtain ⟨s, hs, _⟩ := fround_abs_le 1 (by norm_num) (by norm_num) _ habs
    rw [hs, phase_new_val]
    exact wrap_range s
  · intro a b s hs
    show ∃ r, (Phase.new (fadd (F.finite a) (F.finite b))).val = F.finite r ∧ 0 ≤ r ∧ r ≤ 1
    rw [hs, phase_new_val]
    exact wrap_range s

theorem claim_C5_witness :
    (∃ r, (Phase.add ⟨F.finite (1/2)⟩ ⟨F.finite (3/4)⟩).val = F.finite r ∧
      0 ≤ r ∧ r ≤ 1) ∧
    (∃ r, (Phase.addF64 ⟨F.finite (1/2)⟩ (F.finite 1)).val = F.finite r ∧
      0 ≤ r ∧ r ≤ 1) := by
  refine ⟨claim_C5.1 (1/2) (3/4) (by norm_num) (by norm_num) (by norm_num) (by norm_num),
    claim_C5.2.1 (1/2) 1 (3/2) ?_⟩
  rw [fadd_finite, show (1/2 + 1 : ℚ) = 3/2 by norm_num]
  exact fround_three_halves

/-- Wrapping a negative value whose fmod remainder is exactly zero gives 0. -/
theorem wrap_neg_zero (q : ℚ) (m : ℤ) (hq : q < 0) (h0 : (m:ℚ) ≤ -q)
    (h1 : -q < (m:ℚ) + 1) (hz : q + (m:ℚ) = 0) :
    fremEuclid (F.finite q) (F.finite 1) = F.finite 0 := by
  have htr : qtrunc q = -m := by
    rw [qtrunc, if_neg (not_le.mpr hq)]
    have : ⌊-q⌋ = m := Int.floor_eq_iff.mpr ⟨h0, by linarith⟩
    rw [this]
  have hval : q - (qtrunc q : ℚ) = 0 := by
    rw [htr]
    push_cast
    linarith
  have hcond : fltb (F.finite (q - (qtrunc q : ℚ))) (F.finite 0) = false := by
    rw [hval]
    simp [fltb]
  rw [fremEuclid, frem_one, hcond, if_neg Bool.false_ne_true, hval]

/-- Claim C7 counterexample: periodicity fails at the smallest subnormal:
`2^-1074 + 1.0` rounds to exactly 1.0, so `Phase::new(2^-1074 + 1.0)` is
0.0 while `Phase::new(2^-1074)` is `2^-1074`. -/
theorem claim_C7_counterexample :
    Phase.beq (Phase.new (fadd (F.finite (1/2^1074)) (F.finite 1)))
      (Phase.new (F.finite (1/2^1074))) = false := by
  have h1 : fadd (F.finite (1/2^1074)) (F.finite 1) = F.finite 1 := by
    rw [fadd_finite, show (1/2^1074 + 1 : ℚ) = 1 + 1/2^1074 by ring]
    exact fround_one_add_tiny
  have h2 : (Phase.new (F.finite 1)).val = F.finite 0 := by
    rw [phase_new_val, wrap_one]
  have h3 : (Phase.new (F.finite (1/2^1074))).val = F.finite (1/2^1074) := by
    rw [phase_new_val]
    exact wrap_exact (1/2^1074) (by norm_num) (by norm_num)
  show feqb (Phase.new (fadd (F.finite (1/2^1074)) (F.finite 1))).val
    (Phase.new (F.finite (1/2^1074))).val = false
  rw [h1, h2, h3]
  exact feqb_finite_false _ _ (by norm_num)

/-- Claim C7 (amended): `Phase::new(v + 1.0) == Phase::new(v)` holds
whenever the f64 addition `v + 1.0` is exact (its result `w` equals the
real sum `v + 1`); when the addition rounds — e.g. `v = 2^-1074`, where
`v + 1.0` rounds to 1.0 — the identity can fail (see the counterexample). -/
theorem claim_C7 (q w : ℚ) (h : fadd (F.finite q) (F.finite 1) = F.finite w)
    (hw : w = q + 1) :
    Phase.beq (Phase.new (F.finite w)) (Phase.new (F.finite q)) = true := by
  subst hw
  have key : fremEuclid (F.finite (q + 1)) (F.finite 1) =
      fremEuclid (F.finite q) (F.finite 1) := by
    rcases le_or_lt 0 q with hq | hq
    · have e1 := wrap_exact_shift q ⌊q⌋ hq (Int.floor_le q) (Int.lt_floor_add_one q)
      have e2 := wrap_exact_shift (q + 1) (⌊q⌋ + 1) (by linarith)
        (by push_cast; linarith [Int.floor_le q])
        (by push_cast; linarith [Int.lt_floor_add_one q])
      rw [e1, e2]
      congr 1
      push_cast
      ring
    · rcases lt_or_le 0 (q + 1) with hq1 | hq1
      · have e2 : fremEuclid (F.finite (q + 1)) (F.finite 1) = F.finite (q + 1) :=
          wrap_exact (q + 1) (by linarith) (by linarith)
        have e1 := wrap_neg_eval q 0 hq (by push_cast; linarith)
          (by push_cast; linarith) (by push_cast; linarith)
        rw [e1, e2, show (q + ((0:ℤ):ℚ) + 1 : ℚ) = q + 1 by push_cast; ring]
        exact ((fadd_finite q 1).symm.trans h).symm
      · rcases eq_or_lt_of_le hq1 with heq0 | hlt
        · have hqe : q = -1 := by linarith
          subst hqe
          have ez : fremEuclid (F.finite ((-1 : ℚ) + 1)) (F.finite 1) = F.finite 0 := by
            rw [show ((-1 : ℚ) + 1) = 0 by norm_num]
            exact wrap_exact 0 le_rfl (by norm_num)
          have em : fremEuclid (F.finite (-1 : ℚ)) (F.finite 1) = F.finite 0 :=
            wrap_neg_zero (-1) 1 (by norm_num) (by norm_num) (by norm_num) (by norm_num)
          rw [ez, em]
        · set m : ℤ := ⌊-q⌋ with hm
          have h0 : (m:ℚ) ≤ -q := Int.floor_le (-q)
          have h1 : -q < (m:ℚ) + 1 := by
            have := Int.lt_floor_add_one (-q)
            push_cast at this ⊢
            linarith
          rcases eq_or_lt_of_le (show q + (m:ℚ) ≤ 0 by linarith) with hz | hneg
          · have e1 := wrap_neg_zero q m hq h0 h1 hz
            have e2 := wrap_neg_zero (q + 1) (m - 1) (by linarith)
              (by push_cast; linarith) (by push_cast; linarith)
              (by push_cast; linarith)
            rw [e1, e2]
          · have e1 := wrap_neg_eval q m hq h0 h1 hneg
            have e2 := wrap_neg_eval (q + 1) (m - 1) (by linarith)
              (by push_cast; linarith) (by push_cast; linarith)
              (by push_cast; linarith)
            rw [e1, e2]
            congr 1
            push_cast
            ring
  show feqb (Phase.new (F.finite (q + 1))).val (Phase.new (F.finite q)).val = true
  rw [phase_new_val, phase_new_val, key]
  obtain ⟨r, hr, _, _⟩ := wrap_range q
  rw [hr]
  exact feqb_finite_true _ _ rfl

theorem claim_C7_witness :
    fadd (F.finite (1/2)) (F.finite 1) = F.finite (3/2) ∧
    Phase.beq (Phase.new (F.finite (3/2))) (Phase.new (F.finite (1/2))) = true := by
  have h : fadd (F.finite (1/2)) (F.finite 1) = F.finite (3/2) := by
    rw [fadd_finite, show (1/2 + 1 : ℚ) = 3/2 by norm_num]
    exact fround_three_halves
  exact ⟨h, claim_C7 (1/2) (3/2) h (by norm_num)⟩

/-- Claim C8 counterexample: construction is not idempotent for Phase at
`v = -2^-1074`: `Phase::new(v).val()` is exactly 1.0 (rounded re-add), and
re-constructing from 1.0 wraps to 0.0, so
`Phase::new(Phase::new(v).val()) != Phase::new(v)`. -/
theorem claim_C8_counterexample :
    Phase.beq (Phase.new ((Phase.new (F.finite (-(1/2^1074)))).val))
      (Phase.new (F.finite (-(1/2^1074)))) = false := by
  have h : (Phase.new (F.finite (-(1/2^1074)))).val = F.finite 1 := by
    rw [phase_new_val]
    exact wrap_neg_tiny
  show feqb (Phase.new ((Phase.new (F.finite (-(1/2^1074)))).val)).val
    ((Phase.new (F.finite (-(1/2^1074)))).val) = false
  rw [h, phase_new_val, wrap_one]
  exact feqb_finite_false _ _ (by norm_num)

/-- Claim C8 (amended): `new(new(v).val()) == new(v)` holds for every
finite v for UnipolarFloat and BipolarFloat (clamping is exact and
idempotent); for Phase it holds whenever `Phase::new(v).val() ≠ 1.0` — the
rounded re-add of the wrap can land exactly on 1.0 (e.g. `v = -2^-1074`),
and re-wrapping 1.0 gives 0.0 (see the counterexample). -/
theorem claim_C8 (q : ℚ) :
    UnipolarFloat.beq (UnipolarFloat.new ((UnipolarFloat.new (F.finite q)).val))
      (UnipolarFloat.new (F.finite q)) = true ∧
    BipolarFloat.beq (BipolarFloat.new ((BipolarFloat.new (F.finite q)).val))
      (BipolarFloat.new (F.finite q)) = true ∧
    (∀ r : ℚ, (Phase.new (F.finite q)).val = F.finite r → r ≠ 1 →
      Phase.beq (Phase.new ((Phase.new (F.finite q)).val)) (Phase.new (F.finite q)) = true) := by
  have hu : (UnipolarFloat.new (F.finite q)).val = F.finite (min (max q 0) 1) := by
    rw [uni_new_val, clampF_finite]
  have hb : (BipolarFloat.new (F.finite q)).val = F.finite (min (max q (-1)) 1) := by
    rw [bi_new_val, clampF_finite]
  refine ⟨?_, ?_, ?_⟩
  · show feqb (UnipolarFloat.new ((UnipolarFloat.new (F.finite q)).val)).val
      ((UnipolarFloat.new (F.finite q)).val) = true
    rw [hu, uni_new_eval _ (le_min (le_max_right q 0) (by norm_num)) (min_le_right _ _)]
    exact feqb_finite_true _ _ rfl
  · show feqb (BipolarFloat.new ((BipolarFloat.new (F.finite q)).val)).val
      ((BipolarFloat.new (F.finite q)).val) = true
    rw [hb, bi_new_eval _ (le_min (le_max_right q (-1)) (by norm_num)) (min_le_right _ _)]
    exact feqb_finite_true _ _ rfl
  · intro r hr hne
    obtain ⟨r2, hr2, h0, h1⟩ := phase_new_finite q
    have hrr : F.finite r = F.finite r2 := hr.symm.trans hr2
    injection hrr with hrr2
    subst hrr2
    show feqb (Phase.new ((Phase.new (F.finite q)).val)).val
      ((Phase.new (F.finite q)).val) = true
    rw [hr, phase_new_val, wrap_exact r h0 (lt_of_le_of_ne h1 hne)]
    exact feqb_finite_true _ _ rfl

theorem claim_C8_witness :
    UnipolarFloat.beq (UnipolarFloat.new ((UnipolarFloat.new (F.finite (1/4))).val))
      (UnipolarFloat.new (F.finite (1/4))) = true ∧
    BipolarFloat.beq (BipolarFloat.new ((BipolarFloat.new (F.finite (1/4))).val))
      (BipolarFloat.new (F.finite (1/4))) = true ∧
    Phase.beq (Phase.new ((Phase.new (F.finite (1/4))).val))
      (Phase.new (F.finite (1/4))) = true := by
  obtain ⟨h1, h2, h3⟩ := claim_C8 (1/4)
  refine ⟨h1, h2, h3 (1/4) ?_ (by norm_num)⟩
  rw [phase_new_val]
  exact wrap_exact (1/4) (by norm_num) (by norm_num)
